import Mathlib

/-!
Shallow embedding of the preprocessing pipeline in
`src/Preprocessing/automate_Irfan_Ziyadi_R.py` (function `preprocess_data`).

A table is a header (list of column names) together with a list of rows;
each cell is a numeric value, a text value, or a missing marker (NaN).
Numeric cells are modelled by exact rationals (the idealised semantics of
the script's float arithmetic).  The pipeline steps are translated one by
one from the source: `drop_duplicates`, the required-column check,
feature/target split, `LabelEncoder` (sort the distinct target values and
encode by index), the `X.empty` degenerate branch, `pd.to_numeric` with
coercion of unparseable values to missing, all-missing column pruning,
`fillna` with the column mean, and `StandardScaler` (population standard
deviation, with a unit divisor substituted when the deviation is zero, as
sklearn's `_handle_zeros_in_scale` does).
-/

/-- A cell of the table: a numeric value, a textual value, or a missing
marker (pandas `NaN`). -/
inductive Value where
  | num (q : ℚ)
  | str (s : String)
  | na
  deriving DecidableEq, Repr

/-- A row is the list of cell values, aligned with the table header. -/
abbrev Row := List Value

/-- A data frame: the header names the columns, each row lists the cells. -/
structure Table where
  header : List String
  rows : List Row
  deriving DecidableEq, Repr

/-- Keep the first occurrence of each element, dropping every later exact
duplicate; this is the semantics of pandas `DataFrame.drop_duplicates()`
used at line 26 of the source.  An element at position `i` survives
exactly when `i` is the first position at which this element occurs. -/
def dedupFirst {α : Type} [DecidableEq α] (l : List α) : List α :=
  (l.enum.filter (fun p => decide (l.indexOf p.2 = p.1))).map Prod.snd

/-- Step 1 of `preprocess_data`: `df = df.drop_duplicates()`. -/
def drop_duplicates (t : Table) : Table :=
  ⟨t.header, dedupFirst t.rows⟩

/-- The required columns that are absent, listed alphabetically: the model
of `sorted(required_cols - set(df.columns))` with
`required_cols = \x7b"weather", "date"\x7d` (lines 29-32 of the source). -/
def missingCols (t : Table) : List String :=
  ["date", "weather"].filter (fun c => decide (c ∉ t.header))

/-- The feature column names: `df.drop(columns=["weather", "date"])` when
the table has more than two columns, otherwise the empty `pd.DataFrame()`
(line 35 of the source). -/
def featureNames (t : Table) : List String :=
  if t.header.length > 2 then
    t.header.filter (fun c => decide (c ≠ "weather" ∧ c ≠ "date"))
  else []

/-- The values of column `c`, in row order. -/
def colVals (t : Table) (c : String) : List Value :=
  t.rows.map (fun r => r.getD (t.header.indexOf c) Value.na)

/-- The target column `y = df["weather"]` (line 36 of the source). -/
def targetCol (t : Table) : List Value :=
  colVals t "weather"

/-- Lexicographic comparison of character lists by code point, the order
`numpy.unique` uses on string data. -/
def strLeB : List Char → List Char → Bool
  | [], _ => true
  | _ :: _, [] => false
  | a :: as, b :: bs =>
      if a.toNat < b.toNat then true
      else if a.toNat = b.toNat then strLeB as bs
      else false

/-- Lexicographic order on strings by code point. -/
def strLe (a b : String) : Prop :=
  strLeB a.data b.data = true

instance : DecidableRel strLe := fun a b =>
  inferInstanceAs (Decidable (strLeB a.data b.data = true))

/-- Total order on cell values used to model `numpy.unique`'s ascending
sort inside `LabelEncoder.fit`.  On textual values (the only kind a
categorical target column holds) it is the lexicographic string order;
it is extended to a total order on all cell values by ranking numbers
before strings before missing markers. -/
def Value.le : Value → Value → Prop
  | .num x, .num y => x ≤ y
  | .num _, .str _ => True
  | .num _, .na => True
  | .str _, .num _ => False
  | .str x, .str y => strLe x y
  | .str _, .na => True
  | .na, .num _ => False
  | .na, .str _ => False
  | .na, .na => True

instance : DecidableRel Value.le := fun a b =>
  match a, b with
  | .num x, .num y => inferInstanceAs (Decidable (x ≤ y))
  | .num _, .str _ => inferInstanceAs (Decidable True)
  | .num _, .na => inferInstanceAs (Decidable True)
  | .str _, .num _ => inferInstanceAs (Decidable False)
  | .str x, .str y => inferInstanceAs (Decidable (strLe x y))
  | .str _, .na => inferInstanceAs (Decidable True)
  | .na, .num _ => inferInstanceAs (Decidable False)
  | .na, .str _ => inferInstanceAs (Decidable False)
  | .na, .na => inferInstanceAs (Decidable True)

/-- `LabelEncoder.fit`: the classes are the distinct target values in
ascending order (lines 39-40 of the source). -/
def classesOf (y : List Value) : List Value :=
  List.insertionSort Value.le (dedupFirst y)

/-- `LabelEncoder.transform` of a single value: its index in the sorted
class list. -/
def encodeVal (classes : List Value) (v : Value) : Nat :=
  classes.indexOf v

/-- `LabelEncoder.inverse_transform` of a single code: the class stored at
that index. -/
def decodeVal (classes : List Value) (k : Nat) : Value :=
  classes.getD k Value.na

/-- The encoded target sequence `y_encoded = label_encoder.fit_transform(y)`
(line 40 of the source). -/
def y_encoded (y : List Value) : List Nat :=
  y.map (encodeVal (classesOf y))

/-- The label mapping
`dict(zip(label_encoder.classes_, label_encoder.transform(classes_)))`
(lines 42-44 of the source). -/
def label_mapping (y : List Value) : List (Value × Nat) :=
  (classesOf y).map (fun c => (c, (classesOf y).indexOf c))

/-- Value of a digit list read in base 10. -/
def natOfDigits (cs : List Char) : Nat :=
  cs.foldl (fun n c => 10 * n + (c.toNat - 48)) 0

/-- Parse a decimal literal (optional sign, integer part, optional
fractional part) to a rational; any other string fails to parse.  This is
the model of `pd.to_numeric`'s string parsing on line 53 of the source. -/
def parseNum (s : String) : Option ℚ :=
  let p : ℚ × List Char :=
    match s.toList with
    | '-' :: rest => (-1, rest)
    | '+' :: rest => (1, rest)
    | l => (1, l)
  let ip := p.2.takeWhile (fun c => decide (c ≠ '.'))
  let rest := p.2.dropWhile (fun c => decide (c ≠ '.'))
  match rest with
  | [] =>
      if ip ≠ [] ∧ ip.all Char.isDigit then
        some (p.1 * (natOfDigits ip : ℚ))
      else none
  | _ :: fp =>
      if (ip ≠ [] ∨ fp ≠ []) ∧ ip.all Char.isDigit ∧ fp.all Char.isDigit then
        some (p.1 * ((natOfDigits ip : ℚ) + (natOfDigits fp : ℚ) / 10 ^ fp.length))
      else none

/-- `pd.to_numeric(v, errors="coerce")` on one cell: numbers pass through,
missing stays missing, text is parsed or becomes a missing marker. -/
def to_numeric (v : Value) : Option ℚ :=
  match v with
  | .num q => some q
  | .str s => parseNum s
  | .na => none

/-- Column `c` after numeric coercion: `X.apply(pd.to_numeric, errors="coerce")`
restricted to one column (line 53 of the source). -/
def coercedCol (t : Table) (c : String) : List (Option ℚ) :=
  (colVals t c).map to_numeric

/-- `X_numeric[c].isna().all()`: every entry of the coerced column is a
missing marker. -/
def isAllNA (xs : List (Option ℚ)) : Bool :=
  xs.all (fun o => decide (o = none))

/-- `all_na_cols`, the feature columns that are entirely missing after
coercion, in their appearance order (line 56 of the source). -/
def all_na_cols (t : Table) : List String :=
  (featureNames t).filter (fun c => isAllNA (coercedCol t c))

/-- The feature columns kept after dropping `all_na_cols`
(line 59 of the source). -/
def keptCols (t : Table) : List String :=
  (featureNames t).filter (fun c => ! isAllNA (coercedCol t c))

/-- `X_numeric[c].mean()`: the arithmetic mean of the non-missing entries
(pandas skips missing values). -/
def colMean (xs : List (Option ℚ)) : ℚ :=
  ((xs.filterMap id).sum) / ((xs.filterMap id).length : ℚ)

/-- `X_numeric.fillna(X_numeric.mean())` on one column: replace each
missing marker by the column mean of the non-missing entries
(line 65 of the source). -/
def fillna (xs : List (Option ℚ)) : List ℚ :=
  xs.map (fun o => o.getD (colMean xs))

/-- Mean of a fully numeric column. -/
def meanQ (xs : List ℚ) : ℚ :=
  xs.sum / (xs.length : ℚ)

/-- Population variance (denominator `N`) of a fully numeric column, the
convention used by `StandardScaler`. -/
def popVar (xs : List ℚ) : ℚ :=
  ((xs.map (fun x => (x - meanQ xs) ^ 2)).sum) / (xs.length : ℚ)

/-- `StandardScaler().fit_transform` on one column: subtract the column
mean and divide by the population standard deviation; when that deviation
is zero sklearn's `_handle_zeros_in_scale` substitutes a unit divisor
(lines 67-68 of the source). -/
noncomputable def scaleCol (xs : List ℚ) : List ℝ :=
  let m : ℝ := (meanQ xs : ℚ)
  let s : ℝ := if popVar xs = 0 then 1 else Real.sqrt ((popVar xs : ℚ) : ℝ)
  xs.map (fun x => (((x : ℚ) : ℝ) - m) / s)

/-- Mean of a real column, used to state the standardization property. -/
noncomputable def meanR (xs : List ℝ) : ℝ :=
  xs.sum / (xs.length : ℝ)

/-- Population variance of a real column, used to state the
standardization property. -/
noncomputable def popVarR (xs : List ℝ) : ℝ :=
  ((xs.map (fun x => (x - meanR xs) ^ 2)).sum) / (xs.length : ℝ)

/-- The errors `preprocess_data` can raise: the `ValueError` for missing
required columns (line 32, carrying the sorted missing names) and the
`ValueError` for no usable feature columns (line 62). -/
inductive PErr where
  | schemaError (missing : List String)
  | noUsableFeatures
  deriving DecidableEq, Repr

instance {ε α : Type} [DecidableEq ε] [DecidableEq α] : DecidableEq (Except ε α) :=
  fun a b =>
    match a, b with
    | .ok x, .ok y =>
        if h : x = y then .isTrue (by rw [h]) else .isFalse (by simp [h])
    | .ok _, .error _ => .isFalse (by simp)
    | .error _, .ok _ => .isFalse (by simp)
    | .error x, .error y =>
        if h : x = y then .isTrue (by rw [h]) else .isFalse (by simp [h])

/-- The computable content of a successful run: the kept feature column
names, the imputed (pre-scaling) feature columns, the encoded target, and
the label mapping. -/
structure CoreOut where
  featNames : List String
  featColsQ : List (List ℚ)
  weather : List Nat
  mapping : List (Value × Nat)
  deriving DecidableEq, Repr

/-- `preprocess_data` up to (but not including) the `StandardScaler` call:
de-duplicate, check the schema, split features from target, encode the
target, take the degenerate branch when `X.empty` (zero feature columns or
zero rows), coerce features to numeric, prune all-missing columns, fail
when none remain, and impute column means. -/
def preprocessCore (df : Table) : Except PErr CoreOut :=
  let t := drop_duplicates df
  if missingCols t ≠ [] then
    .error (.schemaError (missingCols t))
  else
    let y := targetCol t
    if (featureNames t).isEmpty || t.rows.isEmpty then
      .ok ⟨[], [], y_encoded y, label_mapping y⟩
    else
      if (keptCols t).isEmpty then
        .error .noUsableFeatures
      else
        .ok ⟨keptCols t,
             (keptCols t).map (fun c => fillna (coercedCol t c)),
             y_encoded y, label_mapping y⟩

/-- The final table of a successful run: scaled feature columns (in their
retained order) and the integer `weather` column. -/
structure Processed where
  featNames : List String
  featCols : List (List ℝ)
  weather : List Nat

/-- The header of the final table: the feature names followed by the
target column name `weather`, placed last (lines 72-73 of the source). -/
def processedHeader (p : Processed) : List String :=
  p.featNames ++ ["weather"]

/-- `preprocess_data(df)`: the whole transformer, returning the processed
table and the label mapping, or one of the two errors. -/
noncomputable def preprocess_data (df : Table) :
    Except PErr (Processed × List (Value × Nat)) :=
  (preprocessCore df).map
    (fun o => (⟨o.featNames, o.featColsQ.map scaleCol, o.weather⟩, o.mapping))

/-- The example raw table from the specification: three rows, the last an
exact duplicate of the first. -/
def exTable : Table :=
  ⟨["date", "weather", "temp"],
   [[.str "2020-01-01", .str "rain", .num 10],
    [.str "2020-01-02", .str "sun", .num 20],
    [.str "2020-01-01", .str "rain", .num 10]]⟩

/-- A raw table that has a feature column but no rows at all. -/
def emptyRowsTable : Table :=
  ⟨["date", "weather", "temp"], []⟩

/-- A raw table lacking the `weather` column. -/
def noWeatherTable : Table :=
  ⟨["date", "temp"], [[.str "2020-01-01", .num 1]]⟩

/-- A raw table lacking both required columns. -/
def noReqTable : Table :=
  ⟨["temp"], [[.num 1]]⟩

/-- A raw table whose only extra column is entirely non-numeric text. -/
def textOnlyTable : Table :=
  ⟨["date", "weather", "note"],
   [[.str "2020-01-01", .str "rain", .str "cloudy day"],
    [.str "2020-01-02", .str "sun", .str "clear sky"]]⟩

/-- A raw table whose single feature column is constant. -/
def constColTable : Table :=
  ⟨["date", "weather", "temp"],
   [[.str "2020-01-01", .str "rain", .num 5],
    [.str "2020-01-02", .str "sun", .num 5]]⟩

/-! ### Lemmas about de-duplication -/

theorem dedupFirst_sublist {α : Type} [DecidableEq α] (l : List α) :
    List.Sublist (dedupFirst l) l := by
  have h1 : List.Sublist (l.enum.filter (fun p => decide (l.indexOf p.2 = p.1))) l.enum :=
    List.filter_sublist _
  simpa [List.enum_map_snd] using h1.map Prod.snd

theorem mem_dedupFirst {α : Type} [DecidableEq α] {l : List α} {x : α} :
    x ∈ dedupFirst l ↔ x ∈ l := by
  constructor
  · exact fun h => (dedupFirst_sublist l).subset h
  · intro hx
    refine List.mem_map.mpr ⟨(l.indexOf x, x), List.mem_filter.mpr ⟨?_, by simp⟩, rfl⟩
    exact List.mk_mem_enum_iff_getElem?.mpr (List.getElem?_indexOf hx)

theorem nodup_dedupFirst {α : Type} [DecidableEq α] (l : List α) :
    (dedupFirst l).Nodup := by
  unfold dedupFirst
  have henum : l.enum.Nodup :=
    (List.nodup_enum_map_fst l).of_map Prod.fst
  refine List.Nodup.map_on ?_ (henum.filter _)
  intro p hp q hq hpq
  have hp' := of_decide_eq_true (List.mem_filter.mp hp).2
  have hq' := of_decide_eq_true (List.mem_filter.mp hq).2
  have : p.1 = q.1 := by rw [← hp', ← hq', hpq]
  exact Prod.ext this hpq

theorem pairwise_indexOf_dedupFirst {α : Type} [DecidableEq α] (l : List α) :
    (dedupFirst l).Pairwise (fun a b => l.indexOf a < l.indexOf b) := by
  unfold dedupFirst
  rw [List.pairwise_map]
  have henum : l.enum.Pairwise (fun p q => p.1 < q.1) := by
    rw [List.pairwise_iff_getElem]
    intro i j hi hj hij
    simpa [List.getElem_enum] using hij
  refine (henum.sublist (List.filter_sublist _)).imp_of_mem ?_
  intro p q hp hq hpq
  have hp' := of_decide_eq_true (List.mem_filter.mp hp).2
  have hq' := of_decide_eq_true (List.mem_filter.mp hq).2
  rw [hp', hq']
  exact hpq

theorem dedupFirst_eq_self_of_nodup {α : Type} [DecidableEq α] {l : List α}
    (h : l.Nodup) : dedupFirst l = l := by
  unfold dedupFirst
  have hall : ∀ p ∈ l.enum, decide (l.indexOf p.2 = p.1) = true := by
    intro p hp
    have hsome := List.mem_enum_iff_getElem?.mp hp
    have hlt : p.1 < l.length := by
      by_contra hge
      rw [List.getElem?_eq_none (Nat.le_of_not_lt hge)] at hsome
      exact Option.noConfusion hsome
    have hval : l[p.1] = p.2 := by
      rw [List.getElem?_eq_getElem hlt] at hsome
      exact Option.some.inj hsome
    simpa using hval ▸ List.indexOf_getElem h p.1 hlt
  rw [List.filter_eq_self.mpr hall, List.enum_map_snd]

theorem dedupFirst_idem {α : Type} [DecidableEq α] (l : List α) :
    dedupFirst (dedupFirst l) = dedupFirst l :=
  dedupFirst_eq_self_of_nodup (nodup_dedupFirst l)

/-! ### The class order is total and transitive -/

theorem strLeB_total : ∀ as bs : List Char, strLeB as bs = true ∨ strLeB bs as = true := by
  intro as
  induction as with
  | nil => intro bs; left; rfl
  | cons a as ih =>
      intro bs
      cases bs with
      | nil => right; rfl
      | cons b bs =>
          by_cases h1 : a.toNat < b.toNat
          · left; simp [strLeB, h1]
          · by_cases h2 : a.toNat = b.toNat
            · rcases ih bs with h | h
              · left; simp [strLeB, h1, h2, h]
              · right; simp [strLeB, h2, h]
            · right
              have : b.toNat < a.toNat := by omega
              simp [strLeB, this]

theorem strLeB_cons (a b : Char) (as bs : List Char) :
    strLeB (a :: as) (b :: bs) =
      if a.toNat < b.toNat then true
      else if a.toNat = b.toNat then strLeB as bs
      else false :=
  rfl

theorem strLeB_trans : ∀ as bs cs : List Char,
    strLeB as bs = true → strLeB bs cs = true → strLeB as cs = true := by
  intro as
  induction as with
  | nil => intro bs cs _ _; rfl
  | cons a as ih =>
      intro bs cs hab hbc
      cases bs with
      | nil => simp [strLeB] at hab
      | cons b bs =>
          cases cs with
          | nil => simp [strLeB] at hbc
          | cons c cs =>
              rcases Nat.lt_trichotomy a.toNat b.toNat with h1 | h1 | h1
              · rcases Nat.lt_trichotomy b.toNat c.toNat with h2 | h2 | h2
                · rw [strLeB_cons, if_pos (by omega)]
                · rw [strLeB_cons, if_pos (by omega)]
                · rw [strLeB_cons, if_neg (by omega), if_neg (by omega)] at hbc
                  exact absurd hbc (by decide)
              · rcases Nat.lt_trichotomy b.toNat c.toNat with h2 | h2 | h2
                · rw [strLeB_cons, if_pos (by omega)]
                · rw [strLeB_cons, if_neg (by omega), if_pos (by omega)] at hab
                  rw [strLeB_cons, if_neg (by omega), if_pos (by omega)] at hbc
                  rw [strLeB_cons, if_neg (by omega), if_pos (by omega)]
                  exact ih bs cs hab hbc
                · rw [strLeB_cons, if_neg (by omega), if_neg (by omega)] at hbc
                  exact absurd hbc (by decide)
              · rw [strLeB_cons, if_neg (by omega), if_neg (by omega)] at hab
                exact absurd hab (by decide)

instance : IsTotal Value Value.le := by
  constructor
  intro a b
  cases a <;> cases b <;> simp [Value.le, strLe]
  · exact le_total _ _
  · exact strLeB_total _ _

instance : IsTrans Value Value.le := by
  constructor
  intro a b c hab hbc
  cases a <;> cases b <;> cases c <;> simp [Value.le, strLe] at hab hbc ⊢
  · exact le_trans hab hbc
  · exact strLeB_trans _ _ _ hab hbc

/-! ### Lemmas about the label encoding -/

theorem classesOf_perm (y : List Value) : List.Perm (classesOf y) (dedupFirst y) :=
  List.perm_insertionSort Value.le (dedupFirst y)

theorem classesOf_nodup (y : List Value) : (classesOf y).Nodup :=
  (classesOf_perm y).nodup_iff.mpr (nodup_dedupFirst y)

theorem mem_classesOf {y : List Value} {v : Value} : v ∈ classesOf y ↔ v ∈ y :=
  ((classesOf_perm y).mem_iff).trans mem_dedupFirst

theorem classesOf_sorted (y : List Value) : (classesOf y).Sorted Value.le :=
  List.sorted_insertionSort Value.le (dedupFirst y)

theorem classesOf_length (y : List Value) :
    (classesOf y).length = (dedupFirst y).length :=
  (classesOf_perm y).length_eq

theorem label_mapping_keys (y : List Value) :
    (label_mapping y).map Prod.fst = classesOf y := by
  simp [label_mapping, List.map_map, Function.comp_def]

theorem label_mapping_codes (y : List Value) :
    (label_mapping y).map Prod.snd = List.range (classesOf y).length := by
  apply List.ext_getElem
  · simp [label_mapping]
  · intro i h1 h2
    simp only [label_mapping, List.map_map, List.getElem_map, Function.comp,
      List.getElem_range]
    exact List.indexOf_getElem (classesOf_nodup y) i (by simpa [label_mapping] using h1)

theorem label_mapping_entries (y : List Value) :
    label_mapping y = (classesOf y).zip (List.range (classesOf y).length) := by
  apply List.ext_getElem
  · simp [label_mapping]
  · intro i h1 h2
    have hi : i < (classesOf y).length := by simpa [label_mapping] using h1
    simp only [label_mapping, List.getElem_map, List.getElem_zip, List.getElem_range]
    exact Prod.ext rfl (List.indexOf_getElem (classesOf_nodup y) i hi)

theorem decode_encode {y : List Value} {v : Value} (h : v ∈ y) :
    decodeVal (classesOf y) (encodeVal (classesOf y) v) = v := by
  have hv : v ∈ classesOf y := mem_classesOf.mpr h
  have hlt : (classesOf y).indexOf v < (classesOf y).length :=
    List.indexOf_lt_length.mpr hv
  rw [decodeVal, encodeVal, List.getD_eq_getElem _ _ hlt]
  exact List.getElem_indexOf hlt

/-! ### Numeric lemmas for the scaler -/

theorem sum_map_div_real (xs : List ℚ) (f : ℚ → ℝ) (s : ℝ) :
    (xs.map (fun x => f x / s)).sum = (xs.map f).sum / s := by
  induction xs with
  | nil => simp
  | cons a l ih => simp [ih, add_div]

theorem sum_map_sub_const (xs : List ℚ) (c : ℝ) :
    (xs.map (fun x : ℚ => (x : ℝ) - c)).sum = ((xs.sum : ℚ) : ℝ) - xs.length * c := by
  induction xs with
  | nil => simp
  | cons a l ih =>
      simp only [List.map_cons, List.sum_cons, List.length_cons, ih]
      push_cast
      ring

theorem sum_map_sq_cast (xs : List ℚ) (m : ℚ) :
    (xs.map (fun x : ℚ => ((x : ℝ) - (m : ℝ)) ^ 2)).sum =
      (((xs.map (fun x => (x - m) ^ 2)).sum : ℚ) : ℝ) := by
  induction xs with
  | nil => simp
  | cons a l ih =>
      simp only [List.map_cons, List.sum_cons, ih]
      push_cast
      ring

theorem sum_sq_nonneg (xs : List ℚ) (m : ℚ) :
    0 ≤ (xs.map (fun x => (x - m) ^ 2)).sum := by
  apply List.sum_nonneg
  intro x hx
  rcases List.mem_map.mp hx with ⟨a, _, rfl⟩
  exact sq_nonneg _

theorem popVar_nonneg (xs : List ℚ) : 0 ≤ popVar xs :=
  div_nonneg (sum_sq_nonneg xs (meanQ xs)) (Nat.cast_nonneg _)

theorem sum_eq_length_mul_meanQ {xs : List ℚ} (h : xs.length ≠ 0) :
    xs.sum = (xs.length : ℚ) * meanQ xs := by
  rw [meanQ, mul_div_cancel₀]
  exact_mod_cast h

theorem sum_sq_eq_popVar_mul {xs : List ℚ} (h : xs.length ≠ 0) :
    (xs.map (fun x => (x - meanQ xs) ^ 2)).sum = popVar xs * (xs.length : ℚ) := by
  rw [popVar, div_mul_cancel₀]
  exact_mod_cast h

theorem popVar_pos_of_two_distinct {xs : List ℚ} {a b : ℚ}
    (ha : a ∈ xs) (hb : b ∈ xs) (hab : a ≠ b) : 0 < popVar xs := by
  have hN : xs.length ≠ 0 := by
    intro h
    rw [List.length_eq_zero] at h
    subst h
    exact absurd ha (List.not_mem_nil a)
  rcases lt_or_eq_of_le (popVar_nonneg xs) with hpos | heq
  · exact hpos
  · exfalso
    have hsum : (xs.map (fun x => (x - meanQ xs) ^ 2)).sum = 0 := by
      have := sum_sq_eq_popVar_mul hN
      rw [← heq] at this
      simpa using this
    have hzero : ∀ z ∈ xs.map (fun x => (x - meanQ xs) ^ 2), z = 0 := by
      intro z hz
      exact List.all_zero_of_le_zero_le_of_sum_eq_zero
        (fun w hw => by
          rcases List.mem_map.mp hw with ⟨u, _, rfl⟩
          exact sq_nonneg _) hsum hz
    have haz : a = meanQ xs := by
      have := hzero _ (List.mem_map_of_mem _ ha)
      have := pow_eq_zero_iff (n := 2) (by norm_num) |>.mp this
      linarith [sub_eq_zero.mp this]
    have hbz : b = meanQ xs := by
      have := hzero _ (List.mem_map_of_mem _ hb)
      have := pow_eq_zero_iff (n := 2) (by norm_num) |>.mp this
      linarith [sub_eq_zero.mp this]
    exact hab (haz.trans hbz.symm)

theorem meanQ_const {a : ℚ} {l : List ℚ} (h : ∀ x ∈ a :: l, x = a) :
    meanQ (a :: l) = a := by
  have hsum : (a :: l).sum = ((a :: l).length : ℚ) * a := by
    induction l with
    | nil => simp
    | cons b m ih =>
        have hb : b = a := h b (by simp)
        have hm : ∀ x ∈ a :: m, x = a := by
          intro x hx
          rcases List.mem_cons.mp hx with rfl | hx
          · rfl
          · exact h x (by simp [hx])
        have := ih hm
        simp only [List.sum_cons, List.length_cons] at this ⊢
        rw [hb]
        push_cast
        push_cast at this
        linarith
  have hlen : (((a :: l).length : ℚ)) ≠ 0 :=
    Nat.cast_ne_zero.mpr (by simp)
  rw [meanQ, hsum, mul_div_cancel_left₀ _ hlen]

theorem scaleCol_eq_of_var_ne {xs : List ℚ} (hv : popVar xs ≠ 0) :
    scaleCol xs =
      xs.map (fun x : ℚ =>
        ((x : ℝ) - ((meanQ xs : ℚ) : ℝ)) / Real.sqrt ((popVar xs : ℚ) : ℝ)) := by
  simp [scaleCol, hv]

theorem sum_dev_zero {xs : List ℚ} (hN : xs.length ≠ 0) :
    (xs.map (fun x : ℚ => (x : ℝ) - ((meanQ xs : ℚ) : ℝ))).sum = 0 := by
  rw [sum_map_sub_const]
  have hq : xs.sum = (xs.length : ℚ) * meanQ xs := sum_eq_length_mul_meanQ hN
  rw [hq]
  push_cast
  ring

theorem scaleCol_mean_zero {xs : List ℚ} (hN : xs.length ≠ 0) (hv : popVar xs ≠ 0) :
    meanR (scaleCol xs) = 0 := by
  rw [scaleCol_eq_of_var_ne hv, meanR, List.length_map, sum_map_div_real,
    sum_dev_zero hN]
  simp

theorem scaleCol_popVar_one {xs : List ℚ} (hN : xs.length ≠ 0) (hv : popVar xs ≠ 0) :
    popVarR (scaleCol xs) = 1 := by
  have hvpos : 0 < popVar xs := lt_of_le_of_ne (popVar_nonneg xs) (Ne.symm hv)
  have hvR : (0 : ℝ) < ((popVar xs : ℚ) : ℝ) := by exact_mod_cast hvpos
  have hsq : Real.sqrt ((popVar xs : ℚ) : ℝ) ^ 2 = ((popVar xs : ℚ) : ℝ) :=
    Real.sq_sqrt (le_of_lt hvR)
  rw [popVarR, scaleCol_mean_zero hN hv, scaleCol_eq_of_var_ne hv,
    List.length_map, List.map_map]
  have hfun :
      ((fun z : ℝ => (z - 0) ^ 2) ∘ fun x : ℚ =>
        ((x : ℝ) - ((meanQ xs : ℚ) : ℝ)) / Real.sqrt ((popVar xs : ℚ) : ℝ)) =
      fun x : ℚ =>
        (((x : ℝ) - ((meanQ xs : ℚ) : ℝ)) ^ 2) / Real.sqrt ((popVar xs : ℚ) : ℝ) ^ 2 := by
    funext x
    simp [div_pow]
  rw [hfun, sum_map_div_real, sum_map_sq_cast, sum_sq_eq_popVar_mul hN, hsq]
  have hNR : ((xs.length : ℚ) : ℝ) ≠ 0 := by
    exact_mod_cast (Nat.cast_ne_zero.mpr hN : ((xs.length : ℚ)) ≠ 0)
  push_cast
  push_cast at hNR
  field_simp

theorem scaleCol_const_zero {xs : List ℚ} (h : ∀ a ∈ xs, ∀ b ∈ xs, a = b) :
    scaleCol xs = List.replicate xs.length 0 := by
  cases xs with
  | nil => simp [scaleCol]
  | cons a l =>
      have hall : ∀ x ∈ a :: l, x = a := fun x hx => h x hx a (by simp)
      have hmean : meanQ (a :: l) = a := meanQ_const hall
      have hvar : popVar (a :: l) = 0 := by
        have hmap : (a :: l).map (fun x => (x - meanQ (a :: l)) ^ 2) =
            List.replicate (a :: l).length 0 := by
          rw [List.eq_replicate_iff]
          refine ⟨by simp, ?_⟩
          intro b hb
          rcases List.mem_map.mp hb with ⟨u, hu, rfl⟩
          rw [hmean, hall u hu]
          ring
        rw [popVar, hmap]
        simp
      rw [List.eq_replicate_iff]
      constructor
      · simp [scaleCol]
      · intro b hb
        simp only [scaleCol, hvar, if_pos] at hb
        rcases List.mem_map.mp hb with ⟨u, hu, rfl⟩
        rw [hmean, hall u hu]
        simp

/-! ### Unfolding lemmas for the pipeline branches -/

theorem missingCols_drop (df : Table) :
    missingCols (drop_duplicates df) = missingCols df :=
  rfl

theorem missingCols_nil_iff {t : Table} :
    missingCols t = [] ↔ "date" ∈ t.header ∧ "weather" ∈ t.header := by
  simp [missingCols, List.filter_eq_nil_iff]

theorem preprocessCore_schema {df : Table}
    (h : missingCols (drop_duplicates df) ≠ []) :
    preprocessCore df = .error (.schemaError (missingCols (drop_duplicates df))) := by
  simp [preprocessCore, h]

theorem preprocessCore_degenerate {df : Table}
    (h1 : missingCols (drop_duplicates df) = [])
    (h2 : featureNames (drop_duplicates df) = [] ∨ (drop_duplicates df).rows = []) :
    preprocessCore df =
      .ok ⟨[], [], y_encoded (targetCol (drop_duplicates df)),
           label_mapping (targetCol (drop_duplicates df))⟩ := by
  have h2' : ((featureNames (drop_duplicates df)).isEmpty
      || (drop_duplicates df).rows.isEmpty) = true := by
    rcases h2 with h | h <;> simp [h]
  simp [preprocessCore, h1, h2']

theorem preprocessCore_noUsable {df : Table}
    (h1 : missingCols (drop_duplicates df) = [])
    (h2 : featureNames (drop_duplicates df) ≠ [])
    (h3 : (drop_duplicates df).rows ≠ [])
    (h4 : keptCols (drop_duplicates df) = []) :
    preprocessCore df = .error .noUsableFeatures := by
  simp [preprocessCore, h1, h2, h3, h4]

theorem preprocessCore_main {df : Table}
    (h1 : missingCols (drop_duplicates df) = [])
    (h2 : featureNames (drop_duplicates df) ≠ [])
    (h3 : (drop_duplicates df).rows ≠ [])
    (h4 : keptCols (drop_duplicates df) ≠ []) :
    preprocessCore df =
      .ok ⟨keptCols (drop_duplicates df),
           (keptCols (drop_duplicates df)).map
             (fun c => fillna (coercedCol (drop_duplicates df) c)),
           y_encoded (targetCol (drop_duplicates df)),
           label_mapping (targetCol (drop_duplicates df))⟩ := by
  simp [preprocessCore, h1, h2, h3, h4]

theorem preprocess_data_error_iff {df : Table} {e : PErr} :
    preprocess_data df = .error e ↔ preprocessCore df = .error e := by
  cases h : preprocessCore df <;> simp [preprocess_data, h, Except.map]

theorem preprocess_data_of_core {df : Table} {o : CoreOut}
    (h : preprocessCore df = .ok o) :
    preprocess_data df =
      .ok (⟨o.featNames, o.featColsQ.map scaleCol, o.weather⟩, o.mapping) := by
  simp [preprocess_data, h, Except.map]

theorem featureNames_eq_nil_iff {t : Table} (h : missingCols t = []) :
    featureNames t = [] ↔ ∀ c ∈ t.header, c = "weather" ∨ c = "date" := by
  obtain ⟨hd, hw⟩ := missingCols_nil_iff.mp h
  by_cases hlen : t.header.length > 2
  · simp only [featureNames, if_pos hlen, List.filter_eq_nil_iff]
    constructor
    · intro h' c hc
      have := h' c hc
      simp only [decide_eq_true_eq] at this
      tauto
    · intro h' c hc
      have := h' c hc
      simp only [decide_eq_true_eq]
      tauto
  · simp only [featureNames, if_neg hlen, true_iff]
    have hne : ("weather" : String) ≠ "date" := by decide
    match t.header, hw, hd, hlen with
    | [a], hw, hd, _ =>
        rw [List.mem_singleton] at hw hd
        exact absurd (hw.trans hd.symm) hne
    | a :: b :: rest, hw, hd, hlen =>
        have hrest : rest = [] := by
          rw [← List.length_eq_zero]
          simp only [List.length_cons, gt_iff_lt, not_lt] at hlen
          omega
        subst hrest
        intro c hc
        simp only [List.mem_cons, List.not_mem_nil, or_false] at hc hw hd
        rcases hw with hw | hw <;> rcases hd with hd | hd
        · exact absurd (hw.trans hd.symm) hne
        · rcases hc with rfl | rfl
          · exact Or.inl hw.symm
          · exact Or.inr hd.symm
        · rcases hc with rfl | rfl
          · exact Or.inr hd.symm
          · exact Or.inl hw.symm
        · exact absurd (hw.trans hd.symm) hne

theorem indexOf_instance_irrelevant {α : Type} [b1 : BEq α] [LawfulBEq α]
    [DecidableEq α] (l : List α) (x : α) :
    @List.indexOf α b1 x l = @List.indexOf α instBEqOfDecidableEq x l := by
  induction l with
  | nil => rfl
  | cons a l ih =>
      simp only [List.indexOf, List.findIdx_cons] at ih ⊢
      by_cases h : a = x
      · subst h
        rw [show (@BEq.beq α b1 a a) = true from beq_self_eq_true a,
          show (@BEq.beq α instBEqOfDecidableEq a a) = true from decide_eq_true rfl,
          cond_true, cond_true]
      · rw [show (@BEq.beq α b1 a x) = false from beq_eq_false_iff_ne.mpr h,
          show (@BEq.beq α instBEqOfDecidableEq a x) = false from decide_eq_false h,
          cond_false, cond_false, ih]

/-- C5: de-duplication removes every row that duplicates an earlier row,
keeps the first occurrence of each distinct row, preserves the relative
order of survivors (the survivors form a sublist of the original rows,
listed in increasing order of first occurrence), and is idempotent. -/
theorem claim_C5_dedup (df : Table) :
    List.Sublist (drop_duplicates df).rows df.rows ∧
    (drop_duplicates df).rows.Nodup ∧
    (∀ r : Row, r ∈ (drop_duplicates df).rows ↔ r ∈ df.rows) ∧
    (drop_duplicates df).rows.Pairwise
      (fun a b => df.rows.indexOf a < df.rows.indexOf b) ∧
    drop_duplicates (drop_duplicates df) = drop_duplicates df := by
  refine ⟨dedupFirst_sublist _, nodup_dedupFirst _, fun r => mem_dedupFirst,
    ?_, ?_⟩
  · refine (pairwise_indexOf_dedupFirst df.rows).imp ?_
    intro a b hab
    rw [@indexOf_instance_irrelevant Row List.instBEq _ _ df.rows a,
      @indexOf_instance_irrelevant Row List.instBEq _ _ df.rows b]
    exact hab
  · simp [drop_duplicates, dedupFirst_idem]

/-- C9: the transformer is deterministic: it is a pure function of the raw
table, so two runs on equal inputs return identical processed tables and
identical label mappings. -/
theorem claim_C9_deterministic (df₁ df₂ : Table) (h : df₁ = df₂) :
    preprocess_data df₁ = preprocess_data df₂ := by
  rw [h]

/-- Witness for C9 at the specification's example table. -/
theorem claim_C9_witness :
    exTable = exTable ∧ preprocess_data exTable = preprocess_data exTable :=
  ⟨rfl, claim_C9_deterministic exTable exTable rfl⟩

/-- C6: a raw table missing the target column, the date column, or both
fails with the schema error naming exactly the missing columns in
alphabetically sorted order; lacking only the target names just it, and
lacking both names both, sorted. -/
theorem claim_C6_schema (df : Table)
    (h : "weather" ∉ df.header ∨ "date" ∉ df.header) :
    preprocess_data df = .error (.schemaError (missingCols df)) ∧
    (missingCols df).Pairwise strLe ∧
    (∀ c, c ∈ missingCols df ↔ ((c = "weather" ∨ c = "date") ∧ c ∉ df.header)) ∧
    (("weather" ∉ df.header ∧ "date" ∈ df.header) → missingCols df = ["weather"]) ∧
    (("weather" ∉ df.header ∧ "date" ∉ df.header) →
      missingCols df = ["date", "weather"]) := by
  have hne : missingCols df ≠ [] := by
    rw [Ne, missingCols_nil_iff]
    tauto
  refine ⟨?_, ?_, ?_, ?_, ?_⟩
  · rw [preprocess_data_error_iff]
    exact preprocessCore_schema hne
  · have hsorted : (["date", "weather"] : List String).Pairwise strLe := by
      decide
    exact hsorted.sublist (List.filter_sublist _)
  · intro c
    simp only [missingCols, List.mem_filter, decide_eq_true_eq]
    constructor
    · rintro ⟨hc, hnotin⟩
      simp only [List.mem_cons, List.not_mem_nil, or_false] at hc
      tauto
    · rintro ⟨hc, hnotin⟩
      refine ⟨?_, hnotin⟩
      rcases hc with rfl | rfl <;> simp
  · rintro ⟨hw, hd⟩
    simp [missingCols, hw, hd]
  · rintro ⟨hw, hd⟩
    simp [missingCols, hw, hd]

/-- Witness for C6 at a table lacking only the target column. -/
theorem claim_C6_witness :
    ("weather" ∉ noWeatherTable.header ∨ "date" ∉ noWeatherTable.header) ∧
    (preprocess_data noWeatherTable =
        .error (.schemaError (missingCols noWeatherTable)) ∧
      (missingCols noWeatherTable).Pairwise strLe ∧
      (∀ c, c ∈ missingCols noWeatherTable ↔
        ((c = "weather" ∨ c = "date") ∧ c ∉ noWeatherTable.header)) ∧
      (("weather" ∉ noWeatherTable.header ∧ "date" ∈ noWeatherTable.header) →
        missingCols noWeatherTable = ["weather"]) ∧
      (("weather" ∉ noWeatherTable.header ∧ "date" ∉ noWeatherTable.header) →
        missingCols noWeatherTable = ["date", "weather"])) :=
  ⟨by decide, claim_C6_schema noWeatherTable (by decide)⟩

/-- C2 counterexample: the raw table `emptyRowsTable` has the extra feature
column `temp`, yet the transformer takes the degenerate branch and returns
a processed table containing only the target column, because the feature
matrix has zero rows and pandas `X.empty` is then true. -/
theorem claim_C2_counterexample :
    ("temp" ∈ emptyRowsTable.header ∧ "temp" ≠ "weather" ∧ "temp" ≠ "date" ∧
      featureNames (drop_duplicates emptyRowsTable) = ["temp"]) ∧
    preprocess_data emptyRowsTable = .ok (⟨[], [], []⟩, []) := by
  refine ⟨by decide, ?_⟩
  have h : preprocessCore emptyRowsTable = .ok ⟨[], [], [], []⟩ := by decide
  simpa using preprocess_data_of_core h

/-- C2 (amended): given that the schema check passes, the transformer takes
the degenerate branch (returning only the encoded target column and the
label mapping) exactly when the feature matrix is empty in the pandas
sense: zero feature columns or zero rows.  Zero feature columns happens
exactly when every column of the raw table is the target or date column;
with at least one additional column and at least one (de-duplicated) row,
the remaining steps are executed. -/
theorem claim_C2_degenerate_amended (df : Table)
    (h : missingCols (drop_duplicates df) = []) :
    (preprocess_data df =
        .ok (⟨[], [], y_encoded (targetCol (drop_duplicates df))⟩,
             label_mapping (targetCol (drop_duplicates df))) ↔
      (featureNames (drop_duplicates df) = [] ∨ (drop_duplicates df).rows = [])) ∧
    (featureNames (drop_duplicates df) = [] ↔
      ∀ c ∈ (drop_duplicates df).header, c = "weather" ∨ c = "date") := by
  constructor
  · constructor
    · intro heq
      by_contra hcon
      push_neg at hcon
      obtain ⟨hf, hr⟩ := hcon
      by_cases hk : keptCols (drop_duplicates df) = []
      · have herr : preprocess_data df = .error .noUsableFeatures :=
          preprocess_data_error_iff.mpr (preprocessCore_noUsable h hf hr hk)
        rw [heq] at herr
        exact Except.noConfusion herr
      · have hok := preprocess_data_of_core (preprocessCore_main h hf hr hk)
        rw [heq] at hok
        simp only [Except.ok.injEq, Prod.mk.injEq, Processed.mk.injEq] at hok
        exact hk hok.1.1.symm
    · intro hcase
      simpa using preprocess_data_of_core (preprocessCore_degenerate h hcase)
  · exact featureNames_eq_nil_iff h

/-- Witness for the amended C2 at the specification's example table, which
has a feature column and rows and therefore does not take the degenerate
branch. -/
theorem claim_C2_amended_witness :
    missingCols (drop_duplicates exTable) = [] ∧
    ((preprocess_data exTable =
        .ok (⟨[], [], y_encoded (targetCol (drop_duplicates exTable))⟩,
             label_mapping (targetCol (drop_duplicates exTable))) ↔
      (featureNames (drop_duplicates exTable) = [] ∨
        (drop_duplicates exTable).rows = [])) ∧
    (featureNames (drop_duplicates exTable) = [] ↔
      ∀ c ∈ (drop_duplicates exTable).header, c = "weather" ∨ c = "date")) :=
  ⟨by decide, claim_C2_degenerate_amended exTable (by decide)⟩

/-- C1: for every raw table, after de-duplication the label mapping has one
entry per distinct target value; its keys are exactly the distinct target
values, without duplicates and in sorted order; its codes are exactly
`0, …, K-1`, assigned in that sorted order; encoding then decoding any
target value returns the original, and decoding then re-encoding any code
returns the code; and the encoded target sequence has the same row count
and order as the de-duplicated table. -/
theorem claim_C1_label_mapping (df : Table) :
    (label_mapping (targetCol (drop_duplicates df))).length =
      (dedupFirst (targetCol (drop_duplicates df))).length ∧
    (label_mapping (targetCol (drop_duplicates df))).map Prod.fst =
      classesOf (targetCol (drop_duplicates df)) ∧
    ((label_mapping (targetCol (drop_duplicates df))).map Prod.fst).Nodup ∧
    (∀ v, v ∈ (label_mapping (targetCol (drop_duplicates df))).map Prod.fst ↔
      v ∈ targetCol (drop_duplicates df)) ∧
    ((label_mapping (targetCol (drop_duplicates df))).map Prod.fst).Sorted Value.le ∧
    (label_mapping (targetCol (drop_duplicates df))).map Prod.snd =
      List.range (dedupFirst (targetCol (drop_duplicates df))).length ∧
    (∀ v ∈ targetCol (drop_duplicates df),
      decodeVal (classesOf (targetCol (drop_duplicates df)))
        (encodeVal (classesOf (targetCol (drop_duplicates df))) v) = v) ∧
    (∀ k, k < (dedupFirst (targetCol (drop_duplicates df))).length →
      encodeVal (classesOf (targetCol (drop_duplicates df)))
        (decodeVal (classesOf (targetCol (drop_duplicates df))) k) = k) ∧
    (y_encoded (targetCol (drop_duplicates df))).length =
      (drop_duplicates df).rows.length ∧
    (∀ i : Nat, (y_encoded (targetCol (drop_duplicates df)))[i]? =
      ((targetCol (drop_duplicates df))[i]?).map
        (encodeVal (classesOf (targetCol (drop_duplicates df))))) := by
  refine ⟨?_, label_mapping_keys _, ?_, ?_, ?_, ?_, fun v hv => decode_encode hv,
    ?_, ?_, ?_⟩
  · simp [label_mapping, classesOf_length]
  · rw [label_mapping_keys]
    exact classesOf_nodup _
  · intro v
    rw [label_mapping_keys]
    exact mem_classesOf
  · rw [label_mapping_keys]
    exact classesOf_sorted _
  · rw [label_mapping_codes, classesOf_length]
  · intro k hk
    have hk2 : k < (classesOf (targetCol (drop_duplicates df))).length := by
      rw [classesOf_length]
      exact hk
    rw [decodeVal, List.getD_eq_getElem _ _ hk2, encodeVal]
    exact List.indexOf_getElem (classesOf_nodup _) k hk2
  · simp [y_encoded, targetCol, colVals]
  · intro i
    simp [y_encoded, List.getElem?_map]

/-- Witness for C1 at the specification's example table. -/
theorem claim_C1_witness :
    (label_mapping (targetCol (drop_duplicates exTable))).length =
      (dedupFirst (targetCol (drop_duplicates exTable))).length ∧
    (label_mapping (targetCol (drop_duplicates exTable))).map Prod.fst =
      classesOf (targetCol (drop_duplicates exTable)) ∧
    ((label_mapping (targetCol (drop_duplicates exTable))).map Prod.fst).Nodup ∧
    (∀ v, v ∈ (label_mapping (targetCol (drop_duplicates exTable))).map Prod.fst ↔
      v ∈ targetCol (drop_duplicates exTable)) ∧
    ((label_mapping (targetCol (drop_duplicates exTable))).map Prod.fst).Sorted Value.le ∧
    (label_mapping (targetCol (drop_duplicates exTable))).map Prod.snd =
      List.range (dedupFirst (targetCol (drop_duplicates exTable))).length ∧
    (∀ v ∈ targetCol (drop_duplicates exTable),
      decodeVal (classesOf (targetCol (drop_duplicates exTable)))
        (encodeVal (classesOf (targetCol (drop_duplicates exTable))) v) = v) ∧
    (∀ k, k < (dedupFirst (targetCol (drop_duplicates exTable))).length →
      encodeVal (classesOf (targetCol (drop_duplicates exTable)))
        (decodeVal (classesOf (targetCol (drop_duplicates exTable))) k) = k) ∧
    (y_encoded (targetCol (drop_duplicates exTable))).length =
      (drop_duplicates exTable).rows.length ∧
    (∀ i : Nat, (y_encoded (targetCol (drop_duplicates exTable)))[i]? =
      ((targetCol (drop_duplicates exTable))[i]?).map
        (encodeVal (classesOf (targetCol (drop_duplicates exTable))))) :=
  claim_C1_label_mapping exTable

/-- C7: on the non-degenerate path, the pruned columns are exactly the
feature columns that are entirely missing after coercion, listed in their
appearance order in the feature matrix; if no feature column remains the
transformer fails with the no-usable-features error, and in particular a
table whose single feature column is entirely unparseable is first
reported as dropped and then causes that failure. -/
theorem claim_C7_pruning (df : Table)
    (h1 : missingCols (drop_duplicates df) = [])
    (h2 : featureNames (drop_duplicates df) ≠ [])
    (h3 : (drop_duplicates df).rows ≠ []) :
    List.Sublist (all_na_cols (drop_duplicates df))
      (featureNames (drop_duplicates df)) ∧
    (∀ c, c ∈ all_na_cols (drop_duplicates df) ↔
      c ∈ featureNames (drop_duplicates df) ∧
        isAllNA (coercedCol (drop_duplicates df) c) = true) ∧
    (keptCols (drop_duplicates df) = [] →
      preprocess_data df = .error .noUsableFeatures) ∧
    (∀ c, featureNames (drop_duplicates df) = [c] →
      isAllNA (coercedCol (drop_duplicates df) c) = true →
        all_na_cols (drop_duplicates df) = [c] ∧
          preprocess_data df = .error .noUsableFeatures) := by
  have herr : keptCols (drop_duplicates df) = [] →
      preprocess_data df = .error .noUsableFeatures := fun hk =>
    preprocess_data_error_iff.mpr (preprocessCore_noUsable h1 h2 h3 hk)
  refine ⟨List.filter_sublist _, ?_, herr, ?_⟩
  · intro c
    simp [all_na_cols, List.mem_filter]
  · intro c hfeat hna
    constructor
    · rw [all_na_cols, hfeat]
      simp [hna]
    · apply herr
      rw [keptCols, hfeat]
      simp [hna]

/-- Witness for C7 at a table whose only extra column is non-numeric text. -/
theorem claim_C7_witness :
    (missingCols (drop_duplicates textOnlyTable) = [] ∧
      featureNames (drop_duplicates textOnlyTable) ≠ [] ∧
      (drop_duplicates textOnlyTable).rows ≠ []) ∧
    (List.Sublist (all_na_cols (drop_duplicates textOnlyTable))
      (featureNames (drop_duplicates textOnlyTable)) ∧
    (∀ c, c ∈ all_na_cols (drop_duplicates textOnlyTable) ↔
      c ∈ featureNames (drop_duplicates textOnlyTable) ∧
        isAllNA (coercedCol (drop_duplicates textOnlyTable) c) = true) ∧
    (keptCols (drop_duplicates textOnlyTable) = [] →
      preprocess_data textOnlyTable = .error .noUsableFeatures) ∧
    (∀ c, featureNames (drop_duplicates textOnlyTable) = [c] →
      isAllNA (coercedCol (drop_duplicates textOnlyTable) c) = true →
        all_na_cols (drop_duplicates textOnlyTable) = [c] ∧
          preprocess_data textOnlyTable = .error .noUsableFeatures)) :=
  ⟨⟨by decide, by decide, by decide⟩,
    claim_C7_pruning textOnlyTable (by decide) (by decide) (by decide)⟩

/-- C8: on the non-degenerate success path, the processed table consists of
the scaled kept feature columns in their original relative order followed
by the encoded integer target column named `weather`, placed last; each
column has the de-duplicated table's row count, and the rows correspond
positionally to the de-duplicated table's rows. -/
theorem claim_C8_assembly (df : Table)
    (h1 : missingCols (drop_duplicates df) = [])
    (h2 : featureNames (drop_duplicates df) ≠ [])
    (h3 : (drop_duplicates df).rows ≠ [])
    (h4 : keptCols (drop_duplicates df) ≠ []) :
    ∃ p lm, preprocess_data df = .ok (p, lm) ∧
      p.featNames = keptCols (drop_duplicates df) ∧
      List.Sublist (keptCols (drop_duplicates df))
        (featureNames (drop_duplicates df)) ∧
      processedHeader p = keptCols (drop_duplicates df) ++ ["weather"] ∧
      p.featCols = (keptCols (drop_duplicates df)).map
        (fun c => scaleCol (fillna (coercedCol (drop_duplicates df) c))) ∧
      (∀ col ∈ p.featCols, col.length = (drop_duplicates df).rows.length) ∧
      p.weather = y_encoded (targetCol (drop_duplicates df)) ∧
      p.weather.length = (drop_duplicates df).rows.length ∧
      lm = label_mapping (targetCol (drop_duplicates df)) := by
  refine ⟨⟨keptCols (drop_duplicates df),
      (keptCols (drop_duplicates df)).map
        (fun c => scaleCol (fillna (coercedCol (drop_duplicates df) c))),
      y_encoded (targetCol (drop_duplicates df))⟩,
    label_mapping (targetCol (drop_duplicates df)),
    ?_, rfl, List.filter_sublist _, rfl, rfl, ?_, rfl, ?_, rfl⟩
  · have hok := preprocess_data_of_core (preprocessCore_main h1 h2 h3 h4)
    rw [hok]
    simp [List.map_map, Function.comp_def]
  · intro col hcol
    rcases List.mem_map.mp hcol with ⟨c, _, rfl⟩
    simp [scaleCol, fillna, coercedCol, colVals]
  · simp [y_encoded, targetCol, colVals]

/-- Witness for C8 at the specification's example table. -/
theorem claim_C8_witness :
    (missingCols (drop_duplicates exTable) = [] ∧
      featureNames (drop_duplicates exTable) ≠ [] ∧
      (drop_duplicates exTable).rows ≠ [] ∧
      keptCols (drop_duplicates exTable) ≠ []) ∧
    (∃ p lm, preprocess_data exTable = .ok (p, lm) ∧
      p.featNames = keptCols (drop_duplicates exTable) ∧
      List.Sublist (keptCols (drop_duplicates exTable))
        (featureNames (drop_duplicates exTable)) ∧
      processedHeader p = keptCols (drop_duplicates exTable) ++ ["weather"] ∧
      p.featCols = (keptCols (drop_duplicates exTable)).map
        (fun c => scaleCol (fillna (coercedCol (drop_duplicates exTable) c))) ∧
      (∀ col ∈ p.featCols, col.length = (drop_duplicates exTable).rows.length) ∧
      p.weather = y_encoded (targetCol (drop_duplicates exTable)) ∧
      p.weather.length = (drop_duplicates exTable).rows.length ∧
      lm = label_mapping (targetCol (drop_duplicates exTable))) :=
  ⟨⟨by decide, by decide, by decide, by decide⟩,
    claim_C8_assembly exTable (by decide) (by decide) (by decide) (by decide)⟩

/-- C3: for every retained feature column whose imputed values contain at
least two distinct values, standardization yields a column with mean
exactly 0 and population variance (denominator `N`) exactly 1, computed
from that same column's statistics. -/
theorem claim_C3_standardization (df : Table) (c : String)
    (hc : c ∈ keptCols (drop_duplicates df))
    (h : ∃ a ∈ fillna (coercedCol (drop_duplicates df) c),
         ∃ b ∈ fillna (coercedCol (drop_duplicates df) c), a ≠ b) :
    meanR (scaleCol (fillna (coercedCol (drop_duplicates df) c))) = 0 ∧
    popVarR (scaleCol (fillna (coercedCol (drop_duplicates df) c))) = 1 := by
  obtain ⟨a, ha, b, hb, hab⟩ := h
  have hN : (fillna (coercedCol (drop_duplicates df) c)).length ≠ 0 := by
    intro h0
    rw [List.length_eq_zero] at h0
    rw [h0] at ha
    exact absurd ha (List.not_mem_nil a)
  have hv : popVar (fillna (coercedCol (drop_duplicates df) c)) ≠ 0 :=
    (popVar_pos_of_two_distinct ha hb hab).ne'
  exact ⟨scaleCol_mean_zero hN hv, scaleCol_popVar_one hN hv⟩

/-- Witness for C3 at the specification's example table, whose `temp`
column holds the two distinct values 10 and 20. -/
theorem claim_C3_witness :
    ("temp" ∈ keptCols (drop_duplicates exTable) ∧
      (∃ a ∈ fillna (coercedCol (drop_duplicates exTable) "temp"),
       ∃ b ∈ fillna (coercedCol (drop_duplicates exTable) "temp"), a ≠ b)) ∧
    (meanR (scaleCol (fillna (coercedCol (drop_duplicates exTable) "temp"))) = 0 ∧
     popVarR (scaleCol (fillna (coercedCol (drop_duplicates exTable) "temp"))) = 1) :=
  ⟨⟨by decide, by decide⟩,
    claim_C3_standardization exTable "temp" (by decide) (by decide)⟩

/-- C10: a retained feature column whose imputed values are all equal does
not make the scaler fail: the zero population deviation is replaced by a
unit divisor, the column is kept at full length, and every scaled value in
it is 0. -/
theorem claim_C10_constant_column (df : Table) (c : String)
    (hc : c ∈ keptCols (drop_duplicates df))
    (h : ∀ a ∈ fillna (coercedCol (drop_duplicates df) c),
         ∀ b ∈ fillna (coercedCol (drop_duplicates df) c), a = b) :
    scaleCol (fillna (coercedCol (drop_duplicates df) c)) =
      List.replicate (fillna (coercedCol (drop_duplicates df) c)).length 0 ∧
    (scaleCol (fillna (coercedCol (drop_duplicates df) c))).length =
      (fillna (coercedCol (drop_duplicates df) c)).length :=
  ⟨scaleCol_const_zero h, by simp [scaleCol]⟩

/-- Witness for C10 at a table whose single feature column is constant. -/
theorem claim_C10_witness :
    ("temp" ∈ keptCols (drop_duplicates constColTable) ∧
      (∀ a ∈ fillna (coercedCol (drop_duplicates constColTable) "temp"),
       ∀ b ∈ fillna (coercedCol (drop_duplicates constColTable) "temp"), a = b)) ∧
    (scaleCol (fillna (coercedCol (drop_duplicates constColTable) "temp")) =
      List.replicate
        (fillna (coercedCol (drop_duplicates constColTable) "temp")).length 0 ∧
    (scaleCol (fillna (coercedCol (drop_duplicates constColTable) "temp"))).length =
      (fillna (coercedCol (drop_duplicates constColTable) "temp")).length) :=
  ⟨⟨by decide, by decide⟩,
    claim_C10_constant_column constColTable "temp" (by decide) (by decide)⟩

/-- C4: every kept feature column has at least one non-missing coerced
value; imputation preserves the column's length, keeps every non-missing
cell unchanged, and replaces every missing cell by the arithmetic mean of
the non-missing values of that same column, computed after coercion and
before scaling. -/
theorem claim_C4_imputation (df : Table) (c : String)
    (hc : c ∈ keptCols (drop_duplicates df)) :
    (∃ q : ℚ, some q ∈ coercedCol (drop_duplicates df) c) ∧
    (fillna (coercedCol (drop_duplicates df) c)).length =
      (coercedCol (drop_duplicates df) c).length ∧
    (∀ i : Nat, ∀ q : ℚ,
      (coercedCol (drop_duplicates df) c)[i]? = some (some q) →
      (fillna (coercedCol (drop_duplicates df) c))[i]? = some q) ∧
    (∀ i : Nat, (coercedCol (drop_duplicates df) c)[i]? = some none →
      (fillna (coercedCol (drop_duplicates df) c))[i]? =
        some (colMean (coercedCol (drop_duplicates df) c))) ∧
    colMean (coercedCol (drop_duplicates df) c) =
      ((coercedCol (drop_duplicates df) c).filterMap id).sum /
        (((coercedCol (drop_duplicates df) c).filterMap id).length : ℚ) := by
  refine ⟨?_, by simp [fillna], ?_, ?_, rfl⟩
  · have hc2 := (List.mem_filter.mp hc).2
    rw [Bool.not_eq_true'] at hc2
    rw [isAllNA] at hc2
    rcases List.all_eq_false.mp hc2 with ⟨o, ho, hno⟩
    cases o with
    | none => simp at hno
    | some q => exact ⟨q, ho⟩
  · intro i q h
    simp [fillna, List.getElem?_map, h]
  · intro i h
    simp [fillna, List.getElem?_map, h]

/-- Witness for C4 at the specification's example table. -/
theorem claim_C4_witness :
    "temp" ∈ keptCols (drop_duplicates exTable) ∧
    ((∃ q : ℚ, some q ∈ coercedCol (drop_duplicates exTable) "temp") ∧
    (fillna (coercedCol (drop_duplicates exTable) "temp")).length =
      (coercedCol (drop_duplicates exTable) "temp").length ∧
    (∀ i : Nat, ∀ q : ℚ,
      (coercedCol (drop_duplicates exTable) "temp")[i]? = some (some q) →
      (fillna (coercedCol (drop_duplicates exTable) "temp"))[i]? = some q) ∧
    (∀ i : Nat, (coercedCol (drop_duplicates exTable) "temp")[i]? = some none →
      (fillna (coercedCol (drop_duplicates exTable) "temp"))[i]? =
        some (colMean (coercedCol (drop_duplicates exTable) "temp"))) ∧
    colMean (coercedCol (drop_duplicates exTable) "temp") =
      ((coercedCol (drop_duplicates exTable) "temp").filterMap id).sum /
        (((coercedCol (drop_duplicates exTable) "temp").filterMap id).length : ℚ)) :=
  ⟨by decide, claim_C4_imputation exTable "temp" (by decide)⟩
